import Mathlib

/-!
Verification of the subtitle-OCR pipeline core (`app/ocr_engine.py`).

The pipeline's pure core is shallowly embedded here:

* Python `float` values are modelled as the exact rational numbers they
  denote.  Where a claim depends on a decimal literal such as `3599.995`,
  the model is applied to the exact rational value of the IEEE-754 binary64
  number nearest to that literal (each arithmetic step performed by
  `ass_time` on those inputs is exact in binary64 — every intermediate
  value fits in 53 bits — so exact rational arithmetic is faithful there).
* Python `str` values are modelled as `String`; `re.sub(r"\s+", " ", ·)`
  and `str.strip` are modelled over the ASCII whitespace characters.
* heterogeneous recognition results are modelled by the inductive `PyVal`;
  a Python exception is an `Except.error`.
* the OpenCC converter is an opaque pure function `conv : String → String`
  (the script-conversion capability of the spec).
-/

/-- ASCII whitespace as matched by Python's `str.strip` / `\s`. -/
def pyIsSpace (c : Char) : Bool :=
  c = ' ' || c = '\t' || c = '\n' || c = '\r' || c = '\x0b' || c = '\x0c'

/-- Python `str.strip()`. -/
def pyStrip (s : String) : String :=
  String.mk (((s.toList.dropWhile pyIsSpace).reverse.dropWhile pyIsSpace).reverse)

/-- Collapse each whitespace run to one space, as `re.sub` with the
pattern of one-or-more whitespace does.
The flag records whether the previous character was whitespace. -/
def collapseWS : Bool → List Char → List Char
  | _, [] => []
  | prevWS, c :: cs =>
    if pyIsSpace c then
      if prevWS then collapseWS true cs else ' ' :: collapseWS true cs
    else c :: collapseWS false cs

/-- Embeds `clean_text` from `ocr_engine.py`: strip, collapse whitespace,
replace `丨` by `｜`. -/
def clean_text (s : String) : String :=
  let t := pyStrip s
  let u := collapseWS false t.toList
  String.mk (u.map (fun c => if c = '丨' then '｜' else c))

/-- Python `int(·)` on a float: truncation toward zero. -/
def pyInt (q : ℚ) : ℤ := if 0 ≤ q then ⌊q⌋ else -⌊-q⌋

/-- Python `%` on floats (sign follows the divisor, as for `a - b*floor(a/b)`). -/
def pyMod (a b : ℚ) : ℚ := a - b * ⌊a / b⌋

/-- Python 3 `round(·)` to an integer: nearest, ties to even. -/
def pyRound (q : ℚ) : ℤ :=
  if q - ⌊q⌋ < 1/2 then ⌊q⌋
  else if 1/2 < q - ⌊q⌋ then ⌊q⌋ + 1
  else if ⌊q⌋ % 2 = 0 then ⌊q⌋ else ⌊q⌋ + 1

/-- Python two-digit zero-padded integer formatting, for the
nonnegative field values produced by `ass_time`. -/
def pad2 (n : ℤ) : String := if 0 ≤ n ∧ n < 10 then "0" ++ toString n else toString n

/-- Embeds `ass_time` from `ocr_engine.py`: `H:MM:SS.CC` with centisecond rounding
and carry propagation (`cs == 100` carries into seconds, minutes, hours). -/
def ass_time (t : ℚ) : String :=
  let h : ℤ := ⌊t / 3600⌋
  let m : ℤ := ⌊pyMod t 3600 / 60⌋
  let s : ℤ := pyInt (pyMod t 60)
  let cs : ℤ := pyRound ((t - pyInt t) * 100)
  let r : ℤ × ℤ × ℤ × ℤ :=
    if cs = 100 then
      if s + 1 = 60 then
        if m + 1 = 60 then (h + 1, 0, 0, 0) else (h, m + 1, 0, 0)
      else (h, m, s + 1, 0)
    else (h, m, s, cs)
  toString r.1 ++ ":" ++ pad2 r.2.1 ++ ":" ++ pad2 r.2.2.1 ++ "." ++ pad2 r.2.2.2

/-- The IEEE-754 binary64 value nearest to the literal `59.999`. -/
def dbl59_999 : ℚ := 8444108563831325 / 140737488355328

/-- The IEEE-754 binary64 value nearest to the literal `3599.995`
(slightly below `3599.995`: it equals `3599.99499999999989…`). -/
def dbl3599_995 : ℚ := 3958236362435461 / 1099511627776

/-- The IEEE-754 binary64 value nearest to the literal `3599.999`. -/
def dbl3599_999 : ℚ := 989560190120493 / 274877906944

/-- One row-update step of the Levenshtein dynamic program: walking the
second string, carrying the previous row and the value just computed. -/
def levNextRow (x : Char) : List Char → List ℕ → ℕ → List ℕ
  | [], _, _ => []
  | _ :: _, [], _ => []
  | y :: ys, dprev :: drest, cur =>
    let dj := drest.headD 0
    let v := min (cur + 1) (min (dj + 1) (dprev + (if x = y then 0 else 1)))
    v :: levNextRow x ys drest v

/-- Full row update of the Levenshtein dynamic program for one character. -/
def levRow (x : Char) (ys : List Char) (row : List ℕ) : List ℕ :=
  let h0 := row.headD 0
  (h0 + 1) :: levNextRow x ys row (h0 + 1)

/-- Embeds `rapidfuzz.distance.Levenshtein.distance` with unit weights: the
classic edit distance, computed by the standard dynamic program. -/
def levDistance (a b : String) : ℕ :=
  ((a.toList.foldl (fun row x => levRow x b.toList row)
      (List.range (b.toList.length + 1))).getLastD 0)

/-- The normalized fuzzy distance of `build_items`:
`Levenshtein.distance(prev, cur) / max(len(prev), len(cur), 1)`. -/
def norm_dist (a b : String) : ℚ :=
  (levDistance a b : ℚ) / ((max (max a.length b.length) 1 : ℕ) : ℚ)

/-- The `Item` dataclass: one timestamped observation. -/
structure Item where
  t : ℚ
  text_sc : String
  text_tc : String
  pos : ℤ × ℤ
deriving DecidableEq

/-- The `Segment` dataclass; the Python field `end` is embedded as `endT`. -/
structure Segment where
  start : ℚ
  endT : ℚ
  text : String
  pos : ℤ × ℤ
deriving DecidableEq

/-- Comparison key of `sorted(segments, key=lambda s: s.start)`. -/
def segStartLe (a b : Segment) : Prop := a.start ≤ b.start

instance : DecidableRel segStartLe :=
  fun a b => inferInstanceAs (Decidable (a.start ≤ b.start))

instance : IsTotal Segment segStartLe := ⟨fun a b => le_total a.start b.start⟩

instance : IsTrans Segment segStartLe := ⟨fun _ _ _ h h' => le_trans h h'⟩

/-- The per-frame body of `build_items` (lines 247–268 of `ocr_engine.py`)
for a readable frame: given the adapter's text and position at time `t` and
the `prev_text_sc` state, return the emitted item (if any) and the new
state.  `conv` is the OpenCC converter. -/
def buildStep (conv : String → String) (thr : ℚ) (t : ℚ)
    (text : String) (pos : ℤ × ℤ) (prev : Option String) :
    Option Item × Option String :=
  let text_sc := pyStrip text
  if text_sc = "" then (none, some "")
  else
    let text_tc := conv text_sc
    match prev with
    | some p =>
      if p = "" then (some ⟨t, text_sc, text_tc, pos⟩, some text_sc)
      else if norm_dist p text_sc < thr then
        (some ⟨t, p, conv p, pos⟩, some p)
      else (some ⟨t, text_sc, text_tc, pos⟩, some text_sc)
    | none => (some ⟨t, text_sc, text_tc, pos⟩, some text_sc)

/-- The frame loop of `build_items`.  The `i`-th frame is timestamped
`i / sample_fps`; an unreadable frame (`cv2.imread` returning `None`,
modelled as `none`) is skipped without touching the state but still
advances the index. -/
def buildItemsAux (conv : String → String) (thr fps : ℚ) :
    ℕ → Option String → List (Option (String × (ℤ × ℤ))) → List Item
  | _, _, [] => []
  | i, prev, none :: rest => buildItemsAux conv thr fps (i + 1) prev rest
  | i, prev, some (text, pos) :: rest =>
    match buildStep conv thr ((i : ℚ) / fps) text pos prev with
    | (some item, prev') => item :: buildItemsAux conv thr fps (i + 1) prev' rest
    | (none, prev') => buildItemsAux conv thr fps (i + 1) prev' rest

/-- Embeds `build_items` from `ocr_engine.py`, abstracted over the per-frame
recognition outcomes (the σ of OCR text and position per frame). -/
def build_items (conv : String → String) (thr fps : ℚ)
    (frames : List (Option (String × (ℤ × ℤ)))) : List Item :=
  buildItemsAux conv thr fps 0 none frames

/-- Embeds `median_pos` from `items_to_segments`: componentwise median, each
coordinate sorted separately and the middle element taken.  Callers always
pass a non-empty list; the default is never read there. -/
def median_pos (ps : List (ℤ × ℤ)) : ℤ × ℤ :=
  let xs := List.insertionSort (· ≤ ·) (ps.map Prod.fst)
  let ys := List.insertionSort (· ≤ ·) (ps.map Prod.snd)
  (xs.getD (xs.length / 2) 0, ys.getD (ys.length / 2) 0)

/-- The accumulation loop of `items_to_segments`, carrying the open
segment's text, start time, positions and last accumulated time. -/
def itemsToSegmentsAux (fps hold : ℚ) :
    String → ℚ → List (ℤ × ℤ) → ℚ → List Item → List Segment
  | curText, curStart, posList, lastT, [] =>
    [⟨curStart, lastT + hold, curText, median_pos posList⟩]
  | curText, curStart, posList, lastT, it :: rest =>
    if it.text_tc = curText ∧ it.t - lastT ≤ (3 / 2) / fps then
      itemsToSegmentsAux fps hold curText curStart (posList ++ [it.pos]) it.t rest
    else
      ⟨curStart, lastT + hold, curText, median_pos posList⟩ ::
        itemsToSegmentsAux fps hold it.text_tc it.t [it.pos] it.t rest

/-- Embeds `items_to_segments` from `ocr_engine.py`.  The adjacency tolerance is
the source's `1.5 / sample_fps`, written `(3/2) / fps`. -/
def items_to_segments (items : List Item) (fps hold : ℚ) : List Segment :=
  match items with
  | [] => []
  | it :: rest => itemsToSegmentsAux fps hold it.text_tc it.t [it.pos] it.t rest

/-- The pair loop of `fill_gaps_upto`: each adjacent pair is visited left
to right; only the earlier segment's `end` is ever assigned, and the later
segment is untouched when its pair is processed, exactly as in the Python
loop over `segments[i]`, `segments[i+1]`. -/
def fillPass (maxGap : ℚ) : List Segment → List Segment
  | [] => []
  | [s] => [s]
  | a :: b :: rest =>
    let gap := b.start - a.endT
    let a' := if gap < 0 then { a with endT := b.start }
              else if 0 < gap ∧ gap ≤ maxGap then { a with endT := b.start }
              else a
    a' :: fillPass maxGap (b :: rest)

/-- Embeds `fill_gaps_upto` from `ocr_engine.py`: stable-sort by start time
(Python's `sorted`), then run the pair loop. -/
def fill_gaps_upto (segments : List Segment) (max_gap : ℚ) : List Segment :=
  match segments with
  | [] => []
  | _ :: _ => fillPass max_gap (List.insertionSort segStartLe segments)

/-- The segment stage of `process_video_to_ass` (after OCR):
`items_to_segments`, then `fill_gaps_upto` only when
`fill_gaps and fill_gaps > 0` (Python truthiness of the float, then the
comparison). -/
def process_segments (items : List Item) (fps hold fill : ℚ) : List Segment :=
  let segs := items_to_segments items fps hold
  if fill ≠ 0 ∧ 0 < fill then fill_gaps_upto segs fill else segs

/-- Python/numpy slice `xs[a:b]` (no step): negative indices count from
the end, then the range is clipped to the list. -/
def pySlice {α : Type} (xs : List α) (a b : ℤ) : List α :=
  let n : ℤ := xs.length
  let s := if a < 0 then max 0 (n + a) else min n a
  let e := if b < 0 then max 0 (n + b) else min n b
  (xs.drop s.toNat).take (e - s).toNat

/-- Embeds `roi_crop` from `ocr_engine.py`: the frame is a list of rows
(numpy's `shape[:2]` is the row count and first-row width), and the crop
is `img[y:y2, x:x2]` with `x2 = min(w, x+cw)`, `y2 = min(h, y+ch)`. -/
def roi_crop {α : Type} (img : List (List α)) (custom : ℤ × ℤ × ℤ × ℤ) :
    List (List α) × ℤ × ℤ :=
  let h : ℤ := img.length
  let w : ℤ := (img.headD []).length
  let (x, y, cw, ch) := custom
  let x2 := min w (x + cw)
  let y2 := min h (y + ch)
  ((pySlice img y y2).map (fun row => pySlice row x x2), x, y)

/-- Modelled from the spec's words for C9: the crop of the ROI rectangle
clamped to the frame's bounds `[0,w] × [0,h]`. -/
def roi_crop_clamped {α : Type} (img : List (List α)) (custom : ℤ × ℤ × ℤ × ℤ) :
    List (List α) × ℤ × ℤ :=
  let h : ℤ := img.length
  let w : ℤ := (img.headD []).length
  let (x, y, cw, ch) := custom
  let r1 := min h (max 0 y)
  let r2 := min h (max 0 (y + ch))
  let c1 := min w (max 0 x)
  let c2 := min w (max 0 (x + cw))
  (((img.drop r1.toNat).take (r2 - r1).toNat).map
      (fun row => (row.drop c1.toNat).take (c2 - c1).toNat), x, y)

/-- A dynamically-typed Python value, as far as the recognition results
exercise the adapter: `None`, strings, ints, floats, lists and tuples. -/
inductive PyVal : Type where
  | vnone : PyVal
  | vstr : String → PyVal
  | vint : ℤ → PyVal
  | vfloat : ℚ → PyVal
  | vlist : List PyVal → PyVal
  | vtuple : List PyVal → PyVal

/-- Python truthiness of a `PyVal`. -/
def PyVal.truthy : PyVal → Bool
  | .vnone => false
  | .vstr s => !s.isEmpty
  | .vint n => n != 0
  | .vfloat q => q != 0
  | .vlist xs => !xs.isEmpty
  | .vtuple xs => !xs.isEmpty

/-- Python `str(·)`.  Only `None`, strings and ints reach `str()` in the
properties proved below; the container renderings are placeholders and no
theorem depends on them. -/
def PyVal.pyStr : PyVal → String
  | .vstr s => s
  | .vnone => "None"
  | .vint n => toString n
  | .vfloat q => toString q
  | .vlist _ => "[..]"
  | .vtuple _ => "(..)"

/-- Python `float(·)` as used on box points: numbers convert, anything
else (including non-numeric strings such as `"a"`, for which `float`
raises `ValueError`) fails.  Numeric strings never occur as box points in
recognition output and string parsing is not modelled. -/
def pyFloatConv : PyVal → Option ℚ
  | .vfloat q => some q
  | .vint n => some (n : ℚ)
  | _ => none

/-- Python iteration `for x in v`: lists and tuples yield their elements,
strings their characters (as one-character strings); other values raise
`TypeError`, modelled as `none`. -/
def pyIterate : PyVal → Option (List PyVal)
  | .vlist xs => some xs
  | .vtuple xs => some xs
  | .vstr s => some (s.toList.map (fun c => PyVal.vstr (String.mk [c])))
  | _ => none

/-- The per-line filter of `pick_best_text_and_pos` (lines 175–194): a
line survives when it is a list/tuple of length ≥ 2 whose `info` part is
a truthy list/tuple with a truthy, non-whitespace first element and whose
`box` part is a truthy list/tuple of length ≥ 4.  The survivor contributes
`clean_text(str(text))` and its box.  All checks are pure, so this loop
cannot raise. -/
def lineExtract (line : PyVal) : Option (String × PyVal) :=
  match line with
  | .vlist (box :: info :: _) | .vtuple (box :: info :: _) =>
    if !info.truthy then none
    else
      match info with
      | .vlist (text :: _) | .vtuple (text :: _) =>
        if !text.truthy then none
        else if pyStrip text.pyStr = "" then none
        else if !box.truthy then none
        else
          match box with
          | .vlist bs | .vtuple bs =>
            if bs.length < 4 then none else some (clean_text text.pyStr, box)
          | _ => none
      | _ => none
  | _ => none

/-- One candidate point of a box: a list/tuple of length ≥ 2 is converted
with `float(p[0])`, `float(p[1])` (which may raise); any other shape is
silently skipped (`none`). -/
def ptVals (p : PyVal) : Option (Except Unit (ℚ × ℚ)) :=
  match p with
  | .vlist (a :: b :: _) | .vtuple (a :: b :: _) =>
    some (match pyFloatConv a with
      | some qa =>
        match pyFloatConv b with
        | some qb => Except.ok (qa, qb)
        | none => Except.error ()
      | none => Except.error ())
  | _ => none

/-- The inner point loop of `pick_best_text_and_pos` over one box. -/
def boxPoints : List PyVal → Except Unit (List ℚ × List ℚ)
  | [] => .ok ([], [])
  | p :: rest =>
    match ptVals p with
    | none => boxPoints rest
    | some (.error e) => .error e
    | some (.ok (qa, qb)) =>
      match boxPoints rest with
      | .error e => .error e
      | .ok (xs, ys) => .ok (qa :: xs, qb :: ys)

/-- The outer point loop of `pick_best_text_and_pos` over all kept boxes
(each kept box is a list or tuple, hence iterable). -/
def collectPts : List PyVal → Except Unit (List ℚ × List ℚ)
  | [] => .ok ([], [])
  | b :: rest =>
    match pyIterate b with
    | none => .error ()
    | some ps =>
      match boxPoints ps with
      | .error e => .error e
      | .ok (xs1, ys1) =>
        match collectPts rest with
        | .error e => .error e
        | .ok (xs2, ys2) => .ok (xs1 ++ xs2, ys1 ++ ys2)

/-- Python `min` of a non-empty float list (the default is never read). -/
def listMin : List ℚ → ℚ
  | [] => 0
  | x :: xs => xs.foldl min x

/-- Python `max` of a non-empty float list (the default is never read). -/
def listMax : List ℚ → ℚ
  | [] => 0
  | x :: xs => xs.foldl max x

/-- Lines 161–169 of `ocr_engine.py`: early returns for `None` and `[]`,
and the unwrap of the nested shape `[[line, …]]`.  `none` means the
function already returned `("", (0, 0))`. -/
def resolveLines (v : PyVal) : Option PyVal :=
  match v with
  | .vnone => none
  | .vlist [] => none
  | .vlist [PyVal.vlist xs] => some (.vlist xs)
  | _ => some v

/-- Embeds `pick_best_text_and_pos` from `ocr_engine.py`, with a Python
exception modelled as `Except.error`.  The source's `if lines is None`
check is provably unreachable — `resolveLines` never yields `some .vnone`
— and is omitted. -/
def pick_best_text_and_pos (v : PyVal) (x_off y_off : ℤ) :
    Except Unit (String × ℤ × ℤ) :=
  match resolveLines v with
  | none => .ok ("", 0, 0)
  | some lines =>
    match pyIterate lines with
    | none => .error ()
    | some elems =>
      let tb := elems.filterMap lineExtract
      match tb with
      | [] => .ok ("", 0, 0)
      | _ :: _ =>
        match collectPts (tb.map Prod.snd) with
        | .error e => .error e
        | .ok (xs, ys) =>
          if xs.isEmpty ∨ ys.isEmpty then .ok ("", 0, 0)
          else
            let merged := pyStrip (String.intercalate " " (tb.map Prod.fst))
            let cx := pyInt ((listMin xs + listMax xs) / 2) + x_off
            let cy := pyInt ((listMin ys + listMax ys) / 2) + y_off
            .ok (merged, cx, cy)

/-- A kept box is harmless: every point that passes the shape check has
numeric coordinates (so `float()` cannot raise on it). -/
def boxSafe (box : PyVal) : Bool :=
  match pyIterate box with
  | none => false
  | some ps =>
    ps.all (fun p =>
      match ptVals p with
      | some (Except.error _) => false
      | _ => true)

/-- A line is safe when it is either filtered out or keeps a safe box. -/
def safeLine (l : PyVal) : Bool :=
  match lineExtract l with
  | some (_, box) => boxSafe box
  | none => true

/-- Recognition results on which the adapter cannot raise: the resolved
lines value is iterable and every line is safe. -/
def SafeVal (v : PyVal) : Bool :=
  match resolveLines v with
  | none => true
  | some lines =>
    match pyIterate lines with
    | none => false
    | some elems => elems.all safeLine

/-- No line passes the usability filters of the adapter. -/
def NoUsable (v : PyVal) : Bool :=
  match resolveLines v with
  | none => true
  | some lines =>
    match pyIterate lines with
    | none => true
    | some elems => elems.all (fun l => (lineExtract l).isNone)

/-- Modelled from the spec's words for C5 (§4.6): per adjacent pair, a
negative gap truncates, a positive gap of at most `maxGap` extends, and
any other gap leaves the pair unchanged; only the earlier segment's end
time is assigned. -/
def gapRule (maxGap : ℚ) (a b : Segment) : Segment :=
  let gap := b.start - a.endT
  if gap < 0 then { a with endT := b.start }
  else if 0 < gap ∧ gap ≤ maxGap then { a with endT := b.start }
  else a

/-- Modelled from the spec's words for C5: the gap filler visits exactly
the adjacent pairs of the (already sorted) list and leaves the final
segment's end time unchanged. -/
def fillZip (maxGap : ℚ) : List Segment → List Segment
  | [] => []
  | [s] => [s]
  | a :: b :: rest => gapRule maxGap a b :: fillZip maxGap (b :: rest)

/-! ## C8 — timestamp serialization -/

/-- C8 counterexample: at the concrete input `3599.995` (i.e. the binary64
value the Python float carries, `3599.99499999999989…`), `ass_time` yields
`"0:59:59.99"`, not the claimed `"1:00:00.00"`: the centiseconds round to
`99` and no carry occurs. -/
theorem ass_time_3599995_no_carry :
    ass_time dbl3599_995 = "0:59:59.99" ∧ ass_time dbl3599_995 ≠ "1:00:00.00" := by
  have h : ass_time dbl3599_995 = "0:59:59.99" := by
    norm_num [ass_time, dbl3599_995, pyMod, pyInt, pyRound, pad2]
    rfl
  exact ⟨h, by rw [h]; decide⟩

/-- C8 (amended): `ass_time 0 = "0:00:00.00"`; `ass_time 59.999` (binary64
value) carries the rounded centiseconds through seconds into minutes,
giving `"0:01:00.00"`; `ass_time 60 = "0:01:00.00"`;
`ass_time 3599.995` (binary64 value `3599.99499999999989…`) rounds to
`"0:59:59.99"` with no carry; the carry into hours occurs e.g. at
`ass_time 3599.999 = "1:00:00.00"`. -/
theorem ass_time_carry :
    ass_time 0 = "0:00:00.00"
    ∧ ass_time dbl59_999 = "0:01:00.00"
    ∧ ass_time 60 = "0:01:00.00"
    ∧ ass_time dbl3599_995 = "0:59:59.99"
    ∧ ass_time dbl3599_999 = "1:00:00.00" := by
  refine ⟨?_, ?_, ?_, ?_, ?_⟩
  · norm_num [ass_time, pyMod, pyInt, pyRound, pad2]
    rfl
  · norm_num [ass_time, dbl59_999, pyMod, pyInt, pyRound, pad2]
    rfl
  · norm_num [ass_time, pyMod, pyInt, pyRound, pad2]
    rfl
  · norm_num [ass_time, dbl3599_995, pyMod, pyInt, pyRound, pad2]
    rfl
  · norm_num [ass_time, dbl3599_999, pyMod, pyInt, pyRound, pad2]
    rfl

/-! ## C9 — ROI clamping -/

/-- With nonnegative bounds, `pySlice` is plain clip-to-length slicing. -/
theorem pySlice_of_nonneg {α : Type} (xs : List α) (a b : ℤ)
    (ha : 0 ≤ a) (hb : 0 ≤ b) :
    pySlice xs a b =
      (xs.drop (min (xs.length : ℤ) a).toNat).take
        ((min (xs.length : ℤ) b) - min (xs.length : ℤ) a).toNat := by
  simp only [pySlice]
  rw [if_neg (not_lt.mpr ha), if_neg (not_lt.mpr hb)]

/-- A one-row test frame of width 10. -/
def imgRow10 : List (List ℤ) := [[0, 1, 2, 3, 4, 5, 6, 7, 8, 9]]

/-- C9 counterexample: for the rectangle `(-5, 0, 3, 1)` on a `1 × 10`
frame, `roi_crop` returns the columns `5..7` (Python's negative indexing
counts from the right end), whereas the rectangle clamped to the frame's
bounds is empty — so the claimed clamping contract fails for negative
`x`. -/
theorem roi_crop_negative_x :
    roi_crop imgRow10 (-5, 0, 3, 1) = ([[5, 6, 7]], -5, 0)
    ∧ roi_crop_clamped imgRow10 (-5, 0, 3, 1) = ([[]], -5, 0)
    ∧ roi_crop imgRow10 (-5, 0, 3, 1) ≠ roi_crop_clamped imgRow10 (-5, 0, 3, 1) := by
  refine ⟨by decide, by decide, by decide⟩

/-- C9 (amended): for rectangles with nonnegative origin and size — the
shape every ROI selector produces — `roi_crop` returns exactly the crop of
the rectangle clamped to the frame's bounds together with the rectangle's
top-left offset, and never fails; rectangles with negative `x` or `y`
instead index from the right/bottom edge (see the counterexample). -/
theorem roi_crop_clamps {α : Type} (img : List (List α)) (x y cw ch : ℤ)
    (hx : 0 ≤ x) (hy : 0 ≤ y) (hcw : 0 ≤ cw) (hch : 0 ≤ ch)
    (hrect : ∀ row ∈ img, (row.length : ℤ) = ((img.headD []).length : ℤ)) :
    roi_crop img (x, y, cw, ch) = roi_crop_clamped img (x, y, cw, ch) := by
  have hh : (0 : ℤ) ≤ (img.length : ℤ) := Int.ofNat_nonneg _
  have hw : (0 : ℤ) ≤ ((img.headD []).length : ℤ) := Int.ofNat_nonneg _
  simp only [roi_crop, roi_crop_clamped]
  refine Prod.ext ?_ rfl
  rw [pySlice_of_nonneg _ _ _ hy (le_min hh (add_nonneg hy hch)),
    max_eq_right hy, max_eq_right (add_nonneg hy hch),
    max_eq_right hx, max_eq_right (add_nonneg hx hcw),
    show min (img.length : ℤ) (min (img.length : ℤ) (y + ch))
        = min (img.length : ℤ) (y + ch) by rw [← min_assoc, min_self]]
  refine List.map_congr_left ?_
  intro row hrow
  have hrowmem : row ∈ img :=
    List.drop_subset _ _ (List.take_subset _ _ hrow)
  have hlen : (row.length : ℤ) = ((img.headD []).length : ℤ) := hrect row hrowmem
  rw [pySlice_of_nonneg _ _ _ hx
      (le_min hw (add_nonneg hx hcw)), hlen,
    show min ((img.headD []).length : ℤ)
          (min ((img.headD []).length : ℤ) (x + cw))
        = min ((img.headD []).length : ℤ) (x + cw) by rw [← min_assoc, min_self]]

/-- C9 witness: a fully in-range evaluation of the amended statement. -/
theorem roi_crop_clamps_witness :
    roi_crop [[(0 : ℤ), 1], [2, 3]] (1, 0, 5, 5)
      = roi_crop_clamped [[(0 : ℤ), 1], [2, 3]] (1, 0, 5, 5) :=
  roi_crop_clamps [[(0 : ℤ), 1], [2, 3]] 1 0 5 5 (by decide) (by decide)
    (by decide) (by decide) (by decide)

/-! ## C10 — the gap filler is skipped for `fill_gaps <= 0` -/

/-- Two items far apart with a long hold gap: the built segments overlap. -/
def exItems10 : List Item := [⟨0, "a", "a", (0, 0)⟩, ⟨10, "b", "b", (0, 0)⟩]

/-- C10: when `fill_gaps` is `0` or negative, `process_video_to_ass`
never invokes `fill_gaps_upto`, so the segment list passed to the
serializer is exactly the output of `items_to_segments`; in particular,
with `hold_gap = 20` the two example segments are serialized overlapping
(`end = 20 > 10 = next start`), which the gap filler would have
truncated. -/
theorem process_segments_skips_gap_filler :
    (∀ (items : List Item) (fps hold fill : ℚ), fill ≤ 0 →
      process_segments items fps hold fill = items_to_segments items fps hold)
    ∧ process_segments exItems10 1 20 0
        = [⟨0, 20, "a", (0, 0)⟩, ⟨10, 30, "b", (0, 0)⟩]
    ∧ ¬ List.Chain' (fun a b => a.endT ≤ b.start) (process_segments exItems10 1 20 0) := by
  have h1 : ∀ (items : List Item) (fps hold fill : ℚ), fill ≤ 0 →
      process_segments items fps hold fill = items_to_segments items fps hold := by
    intro items fps hold fill hfill
    simp only [process_segments]
    rw [if_neg]
    rintro ⟨-, hpos⟩
    exact absurd hpos (not_lt.mpr hfill)
  have h2 : process_segments exItems10 1 20 0
      = [⟨0, 20, "a", (0, 0)⟩, ⟨10, 30, "b", (0, 0)⟩] := by
    rw [h1 _ _ _ _ le_rfl]
    norm_num [exItems10, items_to_segments, itemsToSegmentsAux, median_pos]
  refine ⟨h1, h2, ?_⟩
  rw [h2]
  simp only [List.chain'_cons, List.chain'_singleton, and_true]
  norm_num

/-- C10 witness: the skip branch applied at `fill_gaps = 0`. -/
theorem process_segments_skips_witness :
    process_segments [] 1 0 0 = items_to_segments [] 1 0 :=
  process_segments_skips_gap_filler.1 [] 1 0 0 le_rfl

/-! ## C1 — the noise filter of `build_items` -/

/-- C1: for a processed frame whose stripped text is non-empty while the
previous raw text `p` is non-empty, with
`d = Levenshtein(p, text) / max(len(p), len(text), 1)`:
if `d < thr` the emitted item carries `p` and its re-normalization
`conv p` at the current timestamp `i / fps` with the current position,
and the state keeps `p`; if `d ≥ thr` (including `d = thr` exactly) the
emitted item carries the new text and the state is updated to it. -/
theorem build_items_noise_filter (conv : String → String) (thr fps : ℚ)
    (i : ℕ) (p text : String) (pos : ℤ × ℤ)
    (rest : List (Option (String × (ℤ × ℤ))))
    (hp : p ≠ "") (ht : pyStrip text ≠ "") :
    (norm_dist p (pyStrip text) < thr →
      buildItemsAux conv thr fps i (some p) (some (text, pos) :: rest)
        = ⟨(i : ℚ) / fps, p, conv p, pos⟩ ::
            buildItemsAux conv thr fps (i + 1) (some p) rest)
    ∧ (thr ≤ norm_dist p (pyStrip text) →
      buildItemsAux conv thr fps i (some p) (some (text, pos) :: rest)
        = ⟨(i : ℚ) / fps, pyStrip text, conv (pyStrip text), pos⟩ ::
            buildItemsAux conv thr fps (i + 1) (some (pyStrip text)) rest) := by
  constructor
  · intro hd
    simp only [buildItemsAux, buildStep, if_neg ht, if_neg hp, if_pos hd]
  · intro hd
    simp only [buildItemsAux, buildStep, if_neg ht, if_neg hp,
      if_neg (not_lt.mpr hd)]

/-- The fuzzy distance of `"ab"` to `"ac"` is `1/2 < 1`. -/
theorem nd_ab_ac_lt_one : norm_dist "ab" "ac" < 1 := by
  rw [norm_dist, show levDistance "ab" "ac" = 1 from rfl,
    show max (max (String.length "ab") (String.length "ac")) 1 = 2 from rfl]
  norm_num

/-- The fuzzy distance of `"ab"` to `"cd"` is exactly `1`, the boundary. -/
theorem nd_ab_cd_ge_one : (1 : ℚ) ≤ norm_dist "ab" "cd" := by
  rw [norm_dist, show levDistance "ab" "cd" = 2 from rfl,
    show max (max (String.length "ab") (String.length "cd")) 1 = 2 from rfl]
  norm_num

/-- C1 witness: both branches at concrete inputs — a close reading
(`d = 1/2 < 1`) keeps the previous text, and a reading at the exact
boundary (`d = 1 = thr`) is treated as a genuine change. -/
theorem build_items_noise_filter_witness :
    (buildItemsAux (fun s => s) 1 1 0 (some "ab") [some ("ac", (3, 4))]
      = ⟨((0 : ℕ) : ℚ) / 1, "ab", "ab", (3, 4)⟩ ::
          buildItemsAux (fun s => s) 1 1 1 (some "ab") [])
    ∧ (buildItemsAux (fun s => s) 1 1 0 (some "ab") [some ("cd", (3, 4))]
      = ⟨((0 : ℕ) : ℚ) / 1, "cd", "cd", (3, 4)⟩ ::
          buildItemsAux (fun s => s) 1 1 1 (some "cd") []) :=
  ⟨(build_items_noise_filter (fun s => s) 1 1 0 "ab" "ac" (3, 4) []
      (by decide) (by decide)).1 nd_ab_ac_lt_one,
   (build_items_noise_filter (fun s => s) 1 1 0 "ab" "cd" (3, 4) []
      (by decide) (by decide)).2 nd_ab_cd_ge_one⟩

/-! ## C4 — Segment Builder adjacency -/

/-- C4: an item is accumulated into the open segment exactly when its
normalized text equals the segment's text and its timestamp is within
`1.5 / fps` of the last accumulated timestamp; otherwise the segment is
closed at `lastT + hold` and a new one starts at the item.  Consequently
two identical-text items closer than `1.5 / fps` give one segment and two
identical-text items farther than `1.5 / fps` give two. -/
theorem items_to_segments_adjacency (fps hold : ℚ) :
    (∀ (ct : String) (cs : ℚ) (pl : List (ℤ × ℤ)) (lt : ℚ) (it : Item)
        (rest : List Item),
      it.text_tc = ct ∧ it.t - lt ≤ (3 / 2) / fps →
        itemsToSegmentsAux fps hold ct cs pl lt (it :: rest)
          = itemsToSegmentsAux fps hold ct cs (pl ++ [it.pos]) it.t rest)
    ∧ (∀ (ct : String) (cs : ℚ) (pl : List (ℤ × ℤ)) (lt : ℚ) (it : Item)
        (rest : List Item),
      ¬(it.text_tc = ct ∧ it.t - lt ≤ (3 / 2) / fps) →
        itemsToSegmentsAux fps hold ct cs pl lt (it :: rest)
          = ⟨cs, lt + hold, ct, median_pos pl⟩ ::
              itemsToSegmentsAux fps hold it.text_tc it.t [it.pos] it.t rest)
    ∧ (∀ i1 i2 : Item, i1.text_tc = i2.text_tc → i2.t - i1.t < (3 / 2) / fps →
        (items_to_segments [i1, i2] fps hold).length = 1)
    ∧ (∀ i1 i2 : Item, i1.text_tc = i2.text_tc → (3 / 2) / fps < i2.t - i1.t →
        (items_to_segments [i1, i2] fps hold).length = 2) := by
  refine ⟨?_, ?_, ?_, ?_⟩
  · intro ct cs pl lt it rest h
    simp only [itemsToSegmentsAux, if_pos h]
  · intro ct cs pl lt it rest h
    simp only [itemsToSegmentsAux, if_neg h]
  · intro i1 i2 ht hd
    simp only [items_to_segments, itemsToSegmentsAux,
      if_pos (And.intro ht.symm (le_of_lt hd)), List.length_singleton]
  · intro i1 i2 ht hd
    have : ¬(i2.text_tc = i1.text_tc ∧ i2.t - i1.t ≤ (3 / 2) / fps) := by
      rintro ⟨-, hle⟩
      exact absurd hd (not_lt.mpr hle)
    simp only [items_to_segments, itemsToSegmentsAux, if_neg this,
      List.length_cons, List.length_nil]

/-- Arithmetic fact `1 - 0 < (3/2) / 1` for the adjacency witness. -/
theorem gap_one_lt_tol : (⟨1, "a", "a", (0, 0)⟩ : Item).t - (⟨0, "a", "a", (0, 0)⟩ : Item).t < (3 / 2) / 1 := by
  norm_num

/-- Arithmetic fact `(3/2) / 1 < 2 - 0` for the adjacency witness. -/
theorem tol_lt_gap_two : (3 / 2 : ℚ) / 1 < (⟨2, "a", "a", (0, 0)⟩ : Item).t - (⟨0, "a", "a", (0, 0)⟩ : Item).t := by
  norm_num

/-- C4 witness: at `fps = 1` two identical-text items 1 s apart merge
into one segment and two identical-text items 2 s apart split in two. -/
theorem items_to_segments_adjacency_witness :
    (items_to_segments [⟨0, "a", "a", (0, 0)⟩, ⟨1, "a", "a", (0, 0)⟩] 1 0).length = 1
    ∧ (items_to_segments [⟨0, "a", "a", (0, 0)⟩, ⟨2, "a", "a", (0, 0)⟩] 1 0).length = 2 :=
  ⟨(items_to_segments_adjacency 1 0).2.2.1 ⟨0, "a", "a", (0, 0)⟩ ⟨1, "a", "a", (0, 0)⟩
      rfl gap_one_lt_tol,
   (items_to_segments_adjacency 1 0).2.2.2 ⟨0, "a", "a", (0, 0)⟩ ⟨2, "a", "a", (0, 0)⟩
      rfl tol_lt_gap_two⟩

/-! ## C5 — Gap Filler contract on sorted input -/

/-- The pair loop rewrites each adjacent pair by the spec's gap rule. -/
theorem fillPass_eq_fillZip (g : ℚ) : ∀ l, fillPass g l = fillZip g l
  | [] => rfl
  | [_] => rfl
  | a :: b :: rest => by
    simp only [fillPass, fillZip, gapRule]
    rw [fillPass_eq_fillZip g (b :: rest)]

/-- The pair loop preserves every start time. -/
theorem fillPass_map_start (g : ℚ) :
    ∀ l, (fillPass g l).map Segment.start = l.map Segment.start
  | [] => rfl
  | [_] => rfl
  | a :: b :: rest => by
    simp only [fillPass, List.map_cons, fillPass_map_start g (b :: rest)]
    congr 1
    split
    · rfl
    · split <;> rfl

/-- The pair loop preserves every text. -/
theorem fillPass_map_text (g : ℚ) :
    ∀ l, (fillPass g l).map Segment.text = l.map Segment.text
  | [] => rfl
  | [_] => rfl
  | a :: b :: rest => by
    simp only [fillPass, List.map_cons, fillPass_map_text g (b :: rest)]
    congr 1
    split
    · rfl
    · split <;> rfl

/-- The pair loop preserves every position. -/
theorem fillPass_map_pos (g : ℚ) :
    ∀ l, (fillPass g l).map Segment.pos = l.map Segment.pos
  | [] => rfl
  | [_] => rfl
  | a :: b :: rest => by
    simp only [fillPass, List.map_cons, fillPass_map_pos g (b :: rest)]
    congr 1
    split
    · rfl
    · split <;> rfl

/-- The pair loop preserves the number of segments. -/
theorem fillPass_length (g : ℚ) : ∀ l, (fillPass g l).length = l.length
  | [] => rfl
  | [_] => rfl
  | a :: b :: rest => by
    simp only [fillPass, List.length_cons, fillPass_length g (b :: rest)]

/-- C5: on a list already sorted by start time, `fill_gaps_upto` is
exactly the spec's per-adjacent-pair gap rule (`fillZip`/`gapRule`):
negative gap — truncate to the next start; positive gap at most `maxGap`
— extend to the next start; any other gap (including exactly `0`) —
unchanged; the final segment is untouched; and only end times change:
every start, text, position, and the number and order of segments are
preserved. -/
theorem fill_gaps_pairwise_rule (g : ℚ) (segs : List Segment)
    (hs : List.Chain' segStartLe segs) :
    fill_gaps_upto segs g = fillZip g segs
    ∧ (fill_gaps_upto segs g).length = segs.length
    ∧ (fill_gaps_upto segs g).map Segment.start = segs.map Segment.start
    ∧ (fill_gaps_upto segs g).map Segment.text = segs.map Segment.text
    ∧ (fill_gaps_upto segs g).map Segment.pos = segs.map Segment.pos := by
  have hsorted : List.Sorted segStartLe segs := List.chain'_iff_pairwise.mp hs
  have hfe : fill_gaps_upto segs g = fillPass g segs := by
    cases segs with
    | nil => rfl
    | cons a l => simp only [fill_gaps_upto, hsorted.insertionSort_eq]
  refine ⟨by rw [hfe, fillPass_eq_fillZip], ?_, ?_, ?_, ?_⟩ <;> rw [hfe]
  · exact fillPass_length g segs
  · exact fillPass_map_start g segs
  · exact fillPass_map_text g segs
  · exact fillPass_map_pos g segs

/-- C5 witness: the gap rule evaluated on a concrete sorted pair. -/
theorem fill_gaps_pairwise_rule_witness :
    fill_gaps_upto [⟨0, 1, "a", (0, 0)⟩, ⟨2, 3, "b", (0, 0)⟩] 5
      = fillZip 5 [⟨0, 1, "a", (0, 0)⟩, ⟨2, 3, "b", (0, 0)⟩]
    ∧ (fill_gaps_upto [⟨0, 1, "a", (0, 0)⟩, ⟨2, 3, "b", (0, 0)⟩] 5).length
      = ([⟨0, 1, "a", (0, 0)⟩, ⟨2, 3, "b", (0, 0)⟩] : List Segment).length
    ∧ (fill_gaps_upto [⟨0, 1, "a", (0, 0)⟩, ⟨2, 3, "b", (0, 0)⟩] 5).map Segment.start
      = ([⟨0, 1, "a", (0, 0)⟩, ⟨2, 3, "b", (0, 0)⟩] : List Segment).map Segment.start
    ∧ (fill_gaps_upto [⟨0, 1, "a", (0, 0)⟩, ⟨2, 3, "b", (0, 0)⟩] 5).map Segment.text
      = ([⟨0, 1, "a", (0, 0)⟩, ⟨2, 3, "b", (0, 0)⟩] : List Segment).map Segment.text
    ∧ (fill_gaps_upto [⟨0, 1, "a", (0, 0)⟩, ⟨2, 3, "b", (0, 0)⟩] 5).map Segment.pos
      = ([⟨0, 1, "a", (0, 0)⟩, ⟨2, 3, "b", (0, 0)⟩] : List Segment).map Segment.pos :=
  fill_gaps_pairwise_rule 5 [⟨0, 1, "a", (0, 0)⟩, ⟨2, 3, "b", (0, 0)⟩]
    (List.chain'_pair.mpr zero_le_two)

/-! ## C7 — Gap Filler idempotence -/

/-- The pair loop on a non-empty list yields a head with the same start. -/
theorem fillPass_cons_head (g : ℚ) (b : Segment) (l : List Segment) :
    ∃ z zs, fillPass g (b :: l) = z :: zs ∧ z.start = b.start := by
  cases l with
  | nil => exact ⟨b, [], rfl, rfl⟩
  | cons c cs =>
    simp only [fillPass]
    refine ⟨_, _, rfl, ?_⟩
    split
    · rfl
    · split <;> rfl

/-- The pair loop is idempotent: a pair whose end was moved to the next
start now has gap `0` and all other pairs re-evaluate the same
condition, so a second pass changes nothing. -/
theorem fillPass_idem (g : ℚ) : ∀ l, fillPass g (fillPass g l) = fillPass g l
  | [] => rfl
  | [_] => rfl
  | a :: b :: rest => by
    have ih := fillPass_idem g (b :: rest)
    obtain ⟨z, zs, hz, hzstart⟩ := fillPass_cons_head g b rest
    rw [hz] at ih
    by_cases h1 : b.start - a.endT < 0
    · have e1 : fillPass g (a :: b :: rest)
          = { a with endT := b.start } :: z :: zs := by
        simp only [fillPass, if_pos h1, hz]
      rw [e1]
      have hz0 : z.start - ({ a with endT := b.start } : Segment).endT = 0 := by
        show z.start - b.start = 0
        rw [hzstart, sub_self]
      simp only [fillPass, hz0]
      rw [if_neg (lt_irrefl 0), if_neg (fun h => lt_irrefl 0 h.1), ih]
    · by_cases h2 : 0 < b.start - a.endT ∧ b.start - a.endT ≤ g
      · have e1 : fillPass g (a :: b :: rest)
            = { a with endT := b.start } :: z :: zs := by
          simp only [fillPass, if_neg h1, if_pos h2, hz]
        rw [e1]
        have hz0 : z.start - ({ a with endT := b.start } : Segment).endT = 0 := by
          show z.start - b.start = 0
          rw [hzstart, sub_self]
        simp only [fillPass, hz0]
        rw [if_neg (lt_irrefl 0), if_neg (fun h => lt_irrefl 0 h.1), ih]
      · have e1 : fillPass g (a :: b :: rest) = a :: z :: zs := by
          simp only [fillPass, if_neg h1, if_neg h2, hz]
        rw [e1]
        have hz0 : z.start - a.endT = b.start - a.endT := by rw [hzstart]
        simp only [fillPass, hz0]
        rw [if_neg h1, if_neg h2, ih]

/-- Sortedness by start only depends on the list of start times. -/
theorem sorted_start_congr {l₁ l₂ : List Segment}
    (h : l₁.map Segment.start = l₂.map Segment.start)
    (hs : List.Sorted segStartLe l₁) : List.Sorted segStartLe l₂ := by
  have h1 : List.Pairwise (fun a b : ℚ => a ≤ b) (l₁.map Segment.start) :=
    List.pairwise_map.mpr hs
  rw [h] at h1
  exact List.Pairwise.of_map Segment.start (fun _ _ hab => hab) h1

/-- C7: running the Gap Filler twice with the same `max_gap` yields
exactly the same segment list as running it once, for every input. -/
theorem fill_gaps_idempotent (segs : List Segment) (g : ℚ) :
    fill_gaps_upto (fill_gaps_upto segs g) g = fill_gaps_upto segs g := by
  cases segs with
  | nil => rfl
  | cons a l =>
    have hout : fill_gaps_upto (a :: l) g
        = fillPass g (List.insertionSort segStartLe (a :: l)) := rfl
    have hlen : (fillPass g (List.insertionSort segStartLe (a :: l))).length
        = (a :: l).length := by
      rw [fillPass_length, List.length_insertionSort]
    cases hcons : fillPass g (List.insertionSort segStartLe (a :: l)) with
    | nil => rw [hcons] at hlen; simp at hlen
    | cons z zs =>
      rw [hout, hcons]
      have hsorted : List.Sorted segStartLe (z :: zs) := by
        apply sorted_start_congr _ (List.sorted_insertionSort segStartLe (a :: l))
        rw [← hcons, fillPass_map_start]
      show fillPass g (List.insertionSort segStartLe (z :: zs)) = z :: zs
      rw [hsorted.insertionSort_eq, ← hcons, fillPass_idem]

/-! ## C6 — ordering invariants after gap filling -/

/-- Inside the segment loop, with the open segment's start at or before
the last accumulated time and item times non-decreasing from it, every
produced segment has `start ≤ endT` (given `0 ≤ hold`). -/
theorem segsAux_start_le_end (fps hold : ℚ) (hh : 0 ≤ hold) :
    ∀ (its : List Item) (ct : String) (cs : ℚ) (pl : List (ℤ × ℤ)) (lt : ℚ),
      cs ≤ lt → List.Chain (fun a b : ℚ => a ≤ b) lt (its.map Item.t) →
      ∀ s ∈ itemsToSegmentsAux fps hold ct cs pl lt its, s.start ≤ s.endT
  | [], ct, cs, pl, lt, hcs, _, s, hs => by
    simp only [itemsToSegmentsAux, List.mem_singleton] at hs
    subst hs
    exact le_trans hcs (le_add_of_nonneg_right hh)
  | it :: rest, ct, cs, pl, lt, hcs, hchain, s, hs => by
    rw [List.map_cons, List.chain_cons] at hchain
    obtain ⟨hlt, hchain'⟩ := hchain
    by_cases hc : it.text_tc = ct ∧ it.t - lt ≤ (3 / 2) / fps
    · rw [itemsToSegmentsAux, if_pos hc] at hs
      exact segsAux_start_le_end fps hold hh rest ct cs (pl ++ [it.pos]) it.t
        (le_trans hcs hlt) hchain' s hs
    · rw [itemsToSegmentsAux, if_neg hc, List.mem_cons] at hs
      cases hs with
      | inl hsa =>
        subst hsa
        exact le_trans hcs (le_add_of_nonneg_right hh)
      | inr hsr =>
        exact segsAux_start_le_end fps hold hh rest it.text_tc it.t [it.pos] it.t
          le_rfl hchain' s hsr

/-- Every segment built from time-ordered items satisfies
`start ≤ endT` (given `0 ≤ hold`). -/
theorem items_to_segments_start_le_end (fps hold : ℚ) (hh : 0 ≤ hold)
    (items : List Item)
    (hord : List.Chain' (fun a b : Item => a.t ≤ b.t) items) :
    ∀ s ∈ items_to_segments items fps hold, s.start ≤ s.endT := by
  cases items with
  | nil => simp [items_to_segments]
  | cons it rest =>
    have h0 : List.Chain (fun a b : Item => a.t ≤ b.t) it rest := hord
    have hchain : List.Chain (fun a b : ℚ => a ≤ b) it.t (rest.map Item.t) :=
      (List.chain_map Item.t).mpr h0
    exact segsAux_start_le_end fps hold hh rest it.text_tc it.t [it.pos] it.t
      le_rfl hchain

/-- After the pair loop, consecutive segments never overlap: a truncated
or extended end equals the next start, and an untouched end was already
at most the next start (`gap ≥ 0`) or the pair had `gap > maxGap > 0`. -/
theorem fillPass_chain_endle (g : ℚ) :
    ∀ l, List.Chain' (fun a b : Segment => a.endT ≤ b.start) (fillPass g l)
  | [] => trivial
  | [s] => List.chain'_singleton s
  | a :: b :: rest => by
    obtain ⟨z, zs, hz, hzstart⟩ := fillPass_cons_head g b rest
    have ih := fillPass_chain_endle g (b :: rest)
    rw [hz] at ih
    by_cases h1 : b.start - a.endT < 0
    · have e1 : fillPass g (a :: b :: rest) = { a with endT := b.start } :: z :: zs := by
        simp only [fillPass, if_pos h1, hz]
      rw [e1, List.chain'_cons]
      exact ⟨le_of_eq hzstart.symm, ih⟩
    · by_cases h2 : 0 < b.start - a.endT ∧ b.start - a.endT ≤ g
      · have e1 : fillPass g (a :: b :: rest) = { a with endT := b.start } :: z :: zs := by
          simp only [fillPass, if_neg h1, if_pos h2, hz]
        rw [e1, List.chain'_cons]
        exact ⟨le_of_eq hzstart.symm, ih⟩
      · have e1 : fillPass g (a :: b :: rest) = a :: z :: zs := by
          simp only [fillPass, if_neg h1, if_neg h2, hz]
        rw [e1, List.chain'_cons]
        refine ⟨?_, ih⟩
        rw [hzstart]
        exact sub_nonneg.mp (not_lt.mp h1)

/-- The pair loop keeps `start ≤ endT` on a start-sorted input whose
segments already satisfy it: a moved end lands on the next start, which
is at or after this segment's start. -/
theorem fillPass_start_le_end (g : ℚ) :
    ∀ l, List.Chain' segStartLe l → (∀ s ∈ l, s.start ≤ s.endT) →
      ∀ s ∈ fillPass g l, s.start ≤ s.endT
  | [], _, _, s, hs => by simp [fillPass] at hs
  | [_], _, hpre, s, hs => by
    simp only [fillPass, List.mem_singleton] at hs
    subst hs
    exact hpre _ (by simp)
  | a :: b :: rest, hchain, hpre, s, hs => by
    rw [List.chain'_cons] at hchain
    obtain ⟨hab, hchain'⟩ := hchain
    simp only [fillPass] at hs
    rw [List.mem_cons] at hs
    cases hs with
    | inl hsa =>
      subst hsa
      split
      · exact hab
      · split
        · exact hab
        · exact hpre a (by simp)
    | inr hsr =>
      exact fillPass_start_le_end g (b :: rest) hchain'
        (fun x hx => hpre x (List.mem_cons_of_mem a hx)) s hsr

/-- C6: for items produced in timestamp order with `fps > 0` and
`hold ≥ 0`, the gap-filled segment list is sorted by start time, every
segment satisfies `endT ≥ start`, and consecutive segments do not
overlap (`endT ≤ next start`). -/
theorem segments_invariant_after_fill (items : List Item) (fps hold g : ℚ)
    (_hfps : 0 < fps) (hhold : 0 ≤ hold)
    (hord : List.Chain' (fun a b : Item => a.t ≤ b.t) items) :
    List.Sorted segStartLe (fill_gaps_upto (items_to_segments items fps hold) g)
    ∧ (∀ s ∈ fill_gaps_upto (items_to_segments items fps hold) g, s.start ≤ s.endT)
    ∧ List.Chain' (fun a b : Segment => a.endT ≤ b.start)
        (fill_gaps_upto (items_to_segments items fps hold) g) := by
  have hpre := items_to_segments_start_le_end fps hold hhold items hord
  cases hsegs : items_to_segments items fps hold with
  | nil => simp [fill_gaps_upto]
  | cons a l =>
    rw [hsegs] at hpre
    have hfe : fill_gaps_upto (a :: l) g
        = fillPass g (List.insertionSort segStartLe (a :: l)) := rfl
    rw [hfe]
    have hsortedins : List.Sorted segStartLe (List.insertionSort segStartLe (a :: l)) :=
      List.sorted_insertionSort segStartLe (a :: l)
    refine ⟨?_, ?_, ?_⟩
    · exact sorted_start_congr (fillPass_map_start g _).symm hsortedins
    · refine fillPass_start_le_end g _ hsortedins.chain' ?_
      intro s hs
      exact hpre s ((List.mem_insertionSort segStartLe).mp hs)
    · exact fillPass_chain_endle g _

/-- C6 witness: the invariants evaluated on two concrete ordered items. -/
theorem segments_invariant_after_fill_witness :
    List.Sorted segStartLe
      (fill_gaps_upto
        (items_to_segments [⟨0, "a", "a", (0, 0)⟩, ⟨2, "b", "b", (1, 1)⟩] 1 1) 2)
    ∧ (∀ s ∈ fill_gaps_upto
        (items_to_segments [⟨0, "a", "a", (0, 0)⟩, ⟨2, "b", "b", (1, 1)⟩] 1 1) 2,
        s.start ≤ s.endT)
    ∧ List.Chain' (fun a b : Segment => a.endT ≤ b.start)
        (fill_gaps_upto
          (items_to_segments [⟨0, "a", "a", (0, 0)⟩, ⟨2, "b", "b", (1, 1)⟩] 1 1) 2) :=
  segments_invariant_after_fill [⟨0, "a", "a", (0, 0)⟩, ⟨2, "b", "b", (1, 1)⟩] 1 1 2
    one_pos zero_le_one (List.chain'_pair.mpr zero_le_two)

/-! ## C3 — the Recognition Adapter's shape tolerance -/

/-- The point loop over one box succeeds when no shape-passing point has
a non-numeric coordinate. -/
theorem boxPoints_ok (ps : List PyVal)
    (h : ps.all (fun p =>
      match ptVals p with
      | some (Except.error _) => false
      | _ => true) = true) :
    ∃ r, boxPoints ps = .ok r := by
  induction ps with
  | nil => exact ⟨_, rfl⟩
  | cons p rest ih =>
    rw [List.all_cons, Bool.and_eq_true] at h
    obtain ⟨hp, hrest⟩ := h
    obtain ⟨r, hr⟩ := ih hrest
    cases hpt : ptVals p with
    | none => exact ⟨r, by simp only [boxPoints, hpt, hr]⟩
    | some e =>
      cases e with
      | error u =>
        rw [hpt] at hp
        simp at hp
      | ok q =>
        obtain ⟨qa, qb⟩ := q
        obtain ⟨xs, ys⟩ := r
        exact ⟨(qa :: xs, qb :: ys), by simp only [boxPoints, hpt, hr]⟩

/-- The point loop over all kept boxes succeeds when every box is safe. -/
theorem collectPts_ok (boxes : List PyVal)
    (h : ∀ b ∈ boxes, boxSafe b = true) :
    ∃ r, collectPts boxes = .ok r := by
  induction boxes with
  | nil => exact ⟨_, rfl⟩
  | cons b rest ih =>
    have hb : boxSafe b = true := h b (by simp)
    cases hit : pyIterate b with
    | none =>
      simp only [boxSafe, hit] at hb
      exact Bool.noConfusion hb
    | some ps =>
      simp only [boxSafe, hit] at hb
      obtain ⟨r1, hr1⟩ := boxPoints_ok ps hb
      obtain ⟨r2, hr2⟩ := ih (fun x hx => h x (List.mem_cons_of_mem b hx))
      obtain ⟨xs1, ys1⟩ := r1
      obtain ⟨xs2, ys2⟩ := r2
      exact ⟨(xs1 ++ xs2, ys1 ++ ys2), by simp only [collectPts, hit, hr1, hr2]⟩

/-- C3 (amended): on every recognition result whose resolved lines value
is iterable and whose box points (on lines that pass the filters) are
numeric, the adapter never raises; and whenever no line passes the
usability filters it returns `("", (0, 0))`.  (The unrestricted claim is
false: see the non-numeric-point counterexample.) -/
theorem pick_best_tolerates (v : PyVal) (xo yo : ℤ) (h : SafeVal v = true) :
    (∃ r, pick_best_text_and_pos v xo yo = .ok r)
    ∧ (NoUsable v = true → pick_best_text_and_pos v xo yo = .ok ("", 0, 0)) := by
  cases hrl : resolveLines v with
  | none =>
    constructor
    · exact ⟨_, by simp only [pick_best_text_and_pos, hrl]; rfl⟩
    · intro _
      simp only [pick_best_text_and_pos, hrl]
  | some lines =>
    cases hit : pyIterate lines with
    | none =>
      simp only [SafeVal, hrl, hit] at h
      exact Bool.noConfusion h
    | some elems =>
      simp only [SafeVal, hrl, hit] at h
      cases htb : elems.filterMap lineExtract with
      | nil =>
        constructor
        · exact ⟨_, by simp only [pick_best_text_and_pos, hrl, hit, htb]; rfl⟩
        · intro _
          simp only [pick_best_text_and_pos, hrl, hit, htb]
      | cons tb0 tbs =>
        have hboxes : ∀ b ∈ ((tb0 :: tbs).map Prod.snd), boxSafe b = true := by
          intro b hb
          rw [List.mem_map] at hb
          obtain ⟨pr, hpr, hprb⟩ := hb
          rw [← htb, List.mem_filterMap] at hpr
          obtain ⟨l, hl, hle⟩ := hpr
          have hs : safeLine l = true := List.all_eq_true.mp h l hl
          simp only [safeLine, hle] at hs
          rw [← hprb]
          exact hs
        obtain ⟨r, hr⟩ := collectPts_ok _ hboxes
        obtain ⟨xs, ys⟩ := r
        constructor
        · by_cases hxe : xs.isEmpty = true ∨ ys.isEmpty = true
          · exact ⟨_, by simp only [pick_best_text_and_pos, hrl, hit, htb, hr, if_pos hxe]; rfl⟩
          · exact ⟨_, by simp only [pick_best_text_and_pos, hrl, hit, htb, hr, if_neg hxe]; rfl⟩
        · intro hnu
          simp only [NoUsable, hrl, hit] at hnu
          have hemp : elems.filterMap lineExtract = [] := by
            rw [List.filterMap_eq_nil_iff]
            intro a ha
            have := List.all_eq_true.mp hnu a ha
            exact Option.isNone_iff_eq_none.mp this
          rw [htb] at hemp
          exact absurd hemp (List.cons_ne_nil tb0 tbs)

/-- A recognition result with a well-shaped line whose bounding box holds
a non-numeric point value (`float("a")` raises `ValueError`). -/
def badPointResult : PyVal :=
  .vlist [.vlist [
    .vlist [
      .vlist [.vlist [.vstr "a", .vint 0], .vlist [.vint 0, .vint 0],
              .vlist [.vint 0, .vint 0], .vlist [.vint 0, .vint 0]],
      .vlist [.vstr "hi"]]]]

/-- C3 counterexample: the adapter raises on a line whose box points pass
the shape check but hold a non-numeric string — the function is not
exception-free on every input shape. -/
theorem pick_best_raises_on_bad_point :
    pick_best_text_and_pos badPointResult 0 0 = .error () := rfl

/-- A safe recognition result with no usable line: one `None` entry and
one too-short entry. -/
def noUsableResult : PyVal := .vlist [.vnone, .vlist [.vint 1]]

/-- C3 witness: the amended statement evaluated on a safe result whose
lines are all non-conforming. -/
theorem pick_best_tolerates_witness :
    (∃ r, pick_best_text_and_pos noUsableResult 0 0 = .ok r)
    ∧ pick_best_text_and_pos noUsableResult 0 0 = .ok ("", 0, 0) :=
  ⟨(pick_best_tolerates noUsableResult 0 0 rfl).1,
   (pick_best_tolerates noUsableResult 0 0 rfl).2 rfl⟩

/-! ## C2 — `changeThreshold = 1` does not merge everything -/

/-- Texts `"a"` and `"b"` are at the maximal normalized distance `1`. -/
theorem nd_a_b_not_lt_one : ¬ norm_dist "a" "b" < 1 := by
  rw [norm_dist, show levDistance "a" "b" = 1 from rfl,
    show max (max (String.length "a") (String.length "b")) 1 = 1 from rfl]
  norm_num

/-- C2 counterexample: with `changeThreshold = 1`, two consecutive
non-empty frames `"a"`, `"b"` (adjacent at `fps = 1`) produce TWO
segments, not one — their normalized distance is exactly `1`, which is
not `< 1`, so the second frame starts a new text. -/
theorem threshold_one_two_segments :
    (items_to_segments
      (build_items (fun s => s) 1 1 [some ("a", (0, 0)), some ("b", (0, 0))]) 1 0).length = 2
    ∧ (items_to_segments
      (build_items (fun s => s) 1 1 [some ("a", (0, 0)), some ("b", (0, 0))]) 1 0).length ≠ 1 := by
  have hitems : build_items (fun s => s) 1 1 [some ("a", (0, 0)), some ("b", (0, 0))]
      = [⟨((0 : ℕ) : ℚ) / 1, "a", "a", (0, 0)⟩, ⟨((1 : ℕ) : ℚ) / 1, "b", "b", (0, 0)⟩] := by
    simp only [build_items, buildItemsAux, buildStep,
      show pyStrip "a" = "a" from rfl, show pyStrip "b" = "b" from rfl,
      if_neg (show ¬("a" : String) = "" by decide),
      if_neg (show ¬("b" : String) = "" by decide),
      if_neg nd_a_b_not_lt_one]
  have h2 : (items_to_segments
      (build_items (fun s => s) 1 1 [some ("a", (0, 0)), some ("b", (0, 0))]) 1 0).length = 2 := by
    rw [hitems, items_to_segments, itemsToSegmentsAux,
      if_neg (fun hc => absurd hc.1 (show ¬("b" : String) = "a" by decide)),
      List.length_cons, itemsToSegmentsAux, List.length_singleton]
  exact ⟨h2, by rw [h2]; decide⟩

/-- The items that `build_items` emits while the fuzzy filter keeps
matching: one item per frame, all carrying the stable text `s0`, at times
`i / fps`, `(i+1) / fps`, …, with each frame's own position. -/
def mkConstItems (conv : String → String) (s0 : String) (fps : ℚ) :
    ℕ → List (String × (ℤ × ℤ)) → List Item
  | _, [] => []
  | i, f :: fs => ⟨(i : ℚ) / fps, s0, conv s0, f.2⟩ :: mkConstItems conv s0 fps (i + 1) fs

/-- The `d < thr` branch of the per-frame body. -/
theorem buildStep_keep (conv : String → String) (thr t : ℚ) (text : String)
    (pos : ℤ × ℤ) (p : String) (hp : p ≠ "") (ht : pyStrip text ≠ "")
    (hd : norm_dist p (pyStrip text) < thr) :
    buildStep conv thr t text pos (some p) = (some ⟨t, p, conv p, pos⟩, some p) := by
  simp only [buildStep, if_neg ht, if_neg hp, if_pos hd]

/-- The first-frame branch of the per-frame body. -/
theorem buildStep_first (conv : String → String) (thr t : ℚ) (text : String)
    (pos : ℤ × ℤ) (ht : pyStrip text ≠ "") :
    buildStep conv thr t text pos none
      = (some ⟨t, pyStrip text, conv (pyStrip text), pos⟩, some (pyStrip text)) := by
  simp only [buildStep, if_neg ht]

/-- With threshold `1` and every frame within distance `< 1` of the held
text `s0`, the frame loop emits exactly the constant-text items. -/
theorem buildAux_below_threshold (conv : String → String) (fps : ℚ) :
    ∀ (fs : List (String × (ℤ × ℤ))) (i : ℕ) (s0 : String), s0 ≠ "" →
      (∀ f ∈ fs, pyStrip f.1 ≠ "") →
      (∀ f ∈ fs, norm_dist s0 (pyStrip f.1) < 1) →
      buildItemsAux conv 1 fps i (some s0) (fs.map some)
        = mkConstItems conv s0 fps i fs
  | [], _, _, _, _, _ => rfl
  | f :: fs, i, s0, hs0, hne, hd => by
    obtain ⟨text, pos⟩ := f
    have hf1 : pyStrip text ≠ "" := hne (text, pos) (by simp)
    have hfd : norm_dist s0 (pyStrip text) < 1 := hd (text, pos) (by simp)
    simp only [List.map_cons, buildItemsAux,
      buildStep_keep conv 1 ((i : ℚ) / fps) text pos s0 hs0 hf1 hfd, mkConstItems]
    exact congrArg (List.cons _)
      (buildAux_below_threshold conv fps fs (i + 1) s0 hs0
        (fun x hx => hne x (List.mem_cons_of_mem _ hx))
        (fun x hx => hd x (List.mem_cons_of_mem _ hx)))

/-- Every constant-text item carries text `conv s0`. -/
theorem mkConstItems_text (conv : String → String) (s0 : String) (fps : ℚ) :
    ∀ (fs : List (String × (ℤ × ℤ))) (i : ℕ),
      ∀ it ∈ mkConstItems conv s0 fps i fs, it.text_tc = conv s0
  | [], _, it, h => absurd h (List.not_mem_nil it)
  | f :: fs, i, it, h => by
    rw [mkConstItems, List.mem_cons] at h
    cases h with
    | inl h => subst h; rfl
    | inr h => exact mkConstItems_text conv s0 fps fs (i + 1) it h

/-- Consecutive constant-text items are one sample interval apart, which
is within the adjacency tolerance `1.5 / fps` when `fps > 0`. -/
theorem mkConstItems_chain (conv : String → String) (s0 : String) (fps : ℚ)
    (hfps : 0 < fps) :
    ∀ (fs : List (String × (ℤ × ℤ))) (i : ℕ),
      List.Chain (fun a b : ℚ => b - a ≤ (3 / 2) / fps) ((i : ℚ) / fps)
        ((mkConstItems conv s0 fps (i + 1) fs).map Item.t)
  | [], _ => List.Chain.nil
  | f :: fs, i => by
    rw [mkConstItems, List.map_cons]
    refine List.Chain.cons ?_ (mkConstItems_chain conv s0 fps hfps fs (i + 1))
    show ((i + 1 : ℕ) : ℚ) / fps - (i : ℚ) / fps ≤ (3 / 2) / fps
    have he : ((i + 1 : ℕ) : ℚ) / fps - (i : ℚ) / fps = 1 / fps := by
      rw [div_sub_div_same]
      push_cast
      ring_nf
    rw [he]
    exact (div_le_div_iff_of_pos_right hfps).mpr (by norm_num)

/-- If every item carries the open segment's text and consecutive times
stay within the tolerance, the loop closes exactly one segment. -/
theorem segsAux_single (fps hold : ℚ) :
    ∀ (its : List Item) (ct : String) (cs : ℚ) (pl : List (ℤ × ℤ)) (lt : ℚ),
      (∀ it ∈ its, it.text_tc = ct) →
      List.Chain (fun a b : ℚ => b - a ≤ (3 / 2) / fps) lt (its.map Item.t) →
      (itemsToSegmentsAux fps hold ct cs pl lt its).length = 1
  | [], _, _, _, _, _, _ => rfl
  | it :: rest, ct, cs, pl, lt, htext, hchain => by
    rw [List.map_cons, List.chain_cons] at hchain
    obtain ⟨h1, h2⟩ := hchain
    rw [itemsToSegmentsAux, if_pos ⟨htext it (by simp), h1⟩]
    exact segsAux_single fps hold rest ct cs (pl ++ [it.pos]) it.t
      (fun x hx => htext x (List.mem_cons_of_mem it hx)) h2

/-- C2 (amended): with `changeThreshold = 1` and `fps > 0`, a run of
consecutively sampled non-empty frames merges into a single Segment
PROVIDED every frame's text is within normalized Levenshtein distance
`< 1` of the first frame's (held) text; frames at the maximal distance
exactly `1` instead start a new segment (see the counterexample). -/
theorem threshold_one_single_segment (conv : String → String) (fps hold : ℚ)
    (hfps : 0 < fps) (f0 : String × (ℤ × ℤ)) (rest : List (String × (ℤ × ℤ)))
    (h0 : pyStrip f0.1 ≠ "")
    (hne : ∀ f ∈ rest, pyStrip f.1 ≠ "")
    (hd : ∀ f ∈ rest, norm_dist (pyStrip f0.1) (pyStrip f.1) < 1) :
    (items_to_segments
      (build_items conv 1 fps ((f0 :: rest).map some)) fps hold).length = 1 := by
  obtain ⟨t0, p0⟩ := f0
  have hbuild : build_items conv 1 fps (((t0, p0) :: rest).map some)
      = ⟨((0 : ℕ) : ℚ) / fps, pyStrip t0, conv (pyStrip t0), p0⟩ ::
          mkConstItems conv (pyStrip t0) fps 1 rest := by
    rw [build_items, List.map_cons]
    simp only [buildItemsAux, buildStep_first conv 1 (((0 : ℕ) : ℚ) / fps) t0 p0 h0]
    exact congrArg (List.cons _)
      (buildAux_below_threshold conv fps rest 1 (pyStrip t0) h0 hne hd)
  rw [hbuild, items_to_segments]
  apply segsAux_single
  · intro it hit
    exact mkConstItems_text conv (pyStrip t0) fps rest 1 it hit
  · exact mkConstItems_chain conv (pyStrip t0) fps hfps rest 0

/-- The fuzzy distance of `"ab"` to the stripped `"ac"` is below `1`. -/
theorem nd_ab_ac_stripped_lt_one :
    ∀ f ∈ [("ac", ((1 : ℤ), (1 : ℤ)))], norm_dist (pyStrip "ab") (pyStrip f.1) < 1 := by
  intro f hf
  rw [List.mem_singleton] at hf
  subst hf
  exact nd_ab_ac_lt_one

/-- C2 witness: two close readings (`"ab"`, `"ac"`) at `fps = 1` merge
into a single segment under threshold `1`. -/
theorem threshold_one_single_segment_witness :
    (items_to_segments
      (build_items (fun s => s) 1 1 ([("ab", ((0 : ℤ), (0 : ℤ))), ("ac", (1, 1))].map some)) 1 0).length = 1 :=
  threshold_one_single_segment (fun s => s) 1 0 one_pos ("ab", (0, 0)) [("ac", (1, 1))]
    (by decide) (by decide) nd_ab_ac_stripped_lt_one
